import Mathlib

/-!
Verification development for the SonicWeave audio composition engine
(`src/services/audioUtils.ts` and the session logic of `src/App.tsx`).

The TypeScript code is shallowly embedded:

* an `AudioBuffer` is a structure holding channel count, frame count,
  sample rate and a list of per-channel sample lists; sample values are
  modelled as exact rationals (`ℚ`);
* byte output (`DataView` writes) is modelled as a `List ℕ` of byte
  values, each little-endian write contributing its bytes in order;
* JavaScript `Math.floor` / `Math.ceil` become `Int.floor` / `Int.ceil`
  on `ℚ`, and the `| 0` coercion (truncation toward zero) becomes
  `truncToInt`;
* React session state (`App.tsx`) becomes an explicit state machine:
  a state type, a step function over user actions, and runs as folds
  over action lists.
-/

/-- Fixed sample rate constant, `SAMPLE_RATE = 44100` in `audioUtils.ts`. -/
def SAMPLE_RATE : ℕ := 44100

/-- Embedding of the Web Audio `AudioBuffer` as consumed by the code:
channel count, frame count (`length`), sample rate, and one sample list per
channel. -/
@[ext]
structure AudioBuffer where
  numberOfChannels : ℕ
  length : ℕ
  sampleRate : ℕ
  channels : List (List ℚ)
deriving DecidableEq

/-- Embedding of `context.createBuffer(ch, len, rate)`: a buffer of `ch`
channels, each a zero-filled sample array of length `len`. -/
def createBuffer (ch len rate : ℕ) : AudioBuffer :=
  { numberOfChannels := ch
    length := len
    sampleRate := rate
    channels := List.replicate ch (List.replicate len 0) }

/-- Embedding of `buffer.getChannelData(c)`; out-of-range channel indices
yield the empty array (they are never used in range by the code). -/
def getChannelData (b : AudioBuffer) (c : ℕ) : List ℚ :=
  b.channels.getD c []

/-- The sample stored at channel `c`, index `j` (0 outside the arrays,
matching the fact that the code never reads out of range). -/
def sampleAt (b : AudioBuffer) (c : ℕ) (j : ℕ) : ℚ :=
  (getChannelData b c).getD j 0

/-- Truncation toward zero, the semantics of JavaScript `| 0` for numbers
in 32-bit range (all values fed to it by the encoder are in 16-bit range). -/
def truncToInt (q : ℚ) : ℤ :=
  if q < 0 then ⌈q⌉ else ⌊q⌋

/-- Embedding of `Math.max(-1, Math.min(1, s))` from `audioBufferToWav`. -/
def clampSample (x : ℚ) : ℚ :=
  max (-1) (min 1 x)

/-- Embedding of the sample conversion in `audioBufferToWav`
(`audioUtils.ts` lines 101-102):
`sample = Math.max(-1, Math.min(1, channels[i][pos]));`
`sample = (0.5 + sample < 0 ? sample * 32768 : sample * 32767) | 0;`
By JavaScript operator precedence the condition is `(0.5 + sample) < 0`,
i.e. `sample < -0.5`. -/
def scaleSample (x : ℚ) : ℤ :=
  let sample := clampSample x
  if 1 / 2 + sample < 0 then truncToInt (sample * 32768)
  else truncToInt (sample * 32767)

/-- Little-endian bytes of a 16-bit unsigned write (`DataView.setUint16`),
wrapping modulo 2^16 like the JavaScript method. -/
def u16le (n : ℕ) : List ℕ :=
  [n % 256, n / 256 % 256]

/-- Little-endian bytes of a 32-bit unsigned write (`DataView.setUint32`),
wrapping modulo 2^32 like the JavaScript method. -/
def u32le (n : ℕ) : List ℕ :=
  [n % 256, n / 256 % 256, n / 256 ^ 2 % 256, n / 256 ^ 3 % 256]

/-- Little-endian bytes of a 16-bit signed write (`DataView.setInt16`):
twos-complement representation of `z` modulo 2^16. -/
def i16le (z : ℤ) : List ℕ :=
  u16le (z % 65536).toNat

/-- The 44 header bytes written by `audioBufferToWav` before the sample
data.  `len` is the local `length` of the source
(`buffer.length * numOfChan * 2 + 44`).  The data-chunk size field is
written as `length - pos - 4`; the byte-writing helpers of the source
advance `offset`, never `pos`, so `pos` is still `0` at that point and the
field reads `len - 0 - 4`. -/
def wavHeaderBytes (b : AudioBuffer) : List ℕ :=
  let numOfChan := b.numberOfChannels
  let len := b.length * numOfChan * 2 + 44
  u32le 0x46464952 ++       -- "RIFF"
  u32le (len - 8) ++        -- file length - 8
  u32le 0x45564157 ++       -- "WAVE"
  u32le 0x20746d66 ++       -- "fmt " chunk
  u32le 16 ++               -- length = 16
  u16le 1 ++                -- PCM (uncompressed)
  u16le numOfChan ++
  u32le b.sampleRate ++
  u32le (b.sampleRate * 2 * numOfChan) ++  -- avg. bytes/sec
  u16le (numOfChan * 2) ++  -- block-align
  u16le 16 ++               -- 16-bit
  u32le 0x61746164 ++       -- "data" chunk
  u32le (len - 0 - 4)       -- chunk length field, written with pos = 0

/-- The interleaved sample bytes written by the `while (pos < buffer.length)`
loop of `audioBufferToWav`: for every frame, for every channel, the
two bytes of the scaled 16-bit sample. -/
def wavDataBytes (b : AudioBuffer) : List ℕ :=
  (List.range b.length).flatMap fun pos =>
    (List.range b.numberOfChannels).flatMap fun i =>
      i16le (scaleSample ((getChannelData b i).getD pos 0))

/-- Embedding of `audioBufferToWav`: the byte content of the returned
`Blob`, header followed by interleaved sample data. -/
def audioBufferToWav (b : AudioBuffer) : List ℕ :=
  wavHeaderBytes b ++ wavDataBytes b

/-- Little-endian 16-bit read at byte offset `off` (header decoding). -/
def readU16 (bytes : List ℕ) (off : ℕ) : ℕ :=
  bytes.getD off 0 + 256 * bytes.getD (off + 1) 0

/-- Little-endian 32-bit read at byte offset `off` (header decoding). -/
def readU32 (bytes : List ℕ) (off : ℕ) : ℕ :=
  bytes.getD off 0 + 256 * bytes.getD (off + 1) 0 +
    256 ^ 2 * bytes.getD (off + 2) 0 + 256 ^ 3 * bytes.getD (off + 3) 0

-- Helper lemmas about the scaling step

theorem clampSample_mem (x : ℚ) : -1 ≤ clampSample x ∧ clampSample x ≤ 1 := by
  constructor
  · exact le_max_left _ _
  · exact max_le (by norm_num) (min_le_left _ _)

theorem truncToInt_mem (q : ℚ) (lo hi : ℤ) (hlo : (lo : ℚ) ≤ q) (hhi : q ≤ (hi : ℚ)) :
    lo ≤ truncToInt q ∧ truncToInt q ≤ hi := by
  unfold truncToInt
  split
  · refine ⟨?_, ?_⟩
    · have h := Int.ceil_mono hlo
      rwa [Int.ceil_intCast] at h
    · have h := Int.ceil_mono hhi
      rwa [Int.ceil_intCast] at h
  · refine ⟨?_, ?_⟩
    · have h := Int.floor_mono hlo
      rwa [Int.floor_intCast] at h
    · have h := Int.floor_mono hhi
      rwa [Int.floor_intCast] at h

/-- C10: For every finite input sample value, the integer produced by the
clamp-then-scale-then-truncate step of `audioBufferToWav` lies within the
signed 16-bit range `[-32768, 32767]`, so the 16-bit little-endian write
never receives an out-of-range value. -/
theorem scaleSample_in_int16_range (x : ℚ) :
    -32768 ≤ scaleSample x ∧ scaleSample x ≤ 32767 := by
  obtain ⟨h1, h2⟩ := clampSample_mem x
  simp only [scaleSample]
  split
  · refine truncToInt_mem _ (-32768) 32767 ?_ ?_
    · push_cast
      nlinarith
    · push_cast
      nlinarith
  · refine truncToInt_mem _ (-32768) 32767 ?_ ?_
    · push_cast
      nlinarith
    · push_cast
      nlinarith

-- Concrete evaluations of the scaling step

theorem clampSample_one_quarter_neg : clampSample (-(1 / 4 : ℚ)) = -(1 / 4) := by
  unfold clampSample
  rw [min_eq_right (by norm_num), max_eq_right (by norm_num)]

/-- C2 (counter-evidence): the code does not scale every negative clamped
sample by 32768.  At input `-1/4` the clamped value is negative, the claim
prescribes `trunc(-1/4 * 32768) = -8192`, but the condition in the code
`(0.5 + sample) < 0` is false at `-1/4`, so it computes
`trunc(-1/4 * 32767) = -8191`. -/
theorem scaleSample_quarter_deviates :
    scaleSample (-(1 / 4 : ℚ)) = -8191 ∧
    clampSample (-(1 / 4 : ℚ)) < 0 ∧
    truncToInt (clampSample (-(1 / 4 : ℚ)) * 32768) = -8192 := by
  refine ⟨?_, ?_, ?_⟩
  · simp only [scaleSample]
    rw [clampSample_one_quarter_neg]
    rw [if_neg (by norm_num)]
    unfold truncToInt
    rw [if_pos (by norm_num)]
    rw [Int.ceil_eq_iff]
    constructor
    · norm_num
    · norm_num
  · rw [clampSample_one_quarter_neg]
    norm_num
  · rw [clampSample_one_quarter_neg]
    unfold truncToInt
    rw [if_pos (by norm_num)]
    rw [Int.ceil_eq_iff]
    constructor
    · norm_num
    · norm_num

/-- C7: out-of-range samples are clamped before scaling: `1.5` encodes to
the same 16-bit value as exactly `1.0` (namely 32767), and `-2.0` encodes
to the same value as exactly `-1.0` (namely -32768). -/
theorem scaleSample_clamps :
    scaleSample (3 / 2 : ℚ) = scaleSample 1 ∧
    scaleSample (1 : ℚ) = 32767 ∧
    scaleSample (-2 : ℚ) = scaleSample (-1) ∧
    scaleSample (-1 : ℚ) = -32768 := by
  have hc1 : clampSample (3 / 2 : ℚ) = 1 := by
    unfold clampSample
    rw [min_eq_left (by norm_num), max_eq_right (by norm_num)]
  have hc2 : clampSample (1 : ℚ) = 1 := by
    unfold clampSample
    rw [min_eq_left (by norm_num), max_eq_right (by norm_num)]
  have hc3 : clampSample (-2 : ℚ) = -1 := by
    unfold clampSample
    rw [min_eq_right (by norm_num), max_eq_left (by norm_num)]
  have hc4 : clampSample (-1 : ℚ) = -1 := by
    unfold clampSample
    rw [min_eq_right (by norm_num), max_eq_left (by norm_num)]
  have hpos : scaleSample (1 : ℚ) = 32767 := by
    simp only [scaleSample]
    rw [hc2, if_neg (by norm_num)]
    unfold truncToInt
    rw [if_neg (by norm_num)]
    norm_num
  have hneg : scaleSample (-1 : ℚ) = -32768 := by
    simp only [scaleSample]
    rw [hc4, if_pos (by norm_num)]
    unfold truncToInt
    rw [if_pos (by norm_num)]
    rw [Int.ceil_eq_iff]
    constructor
    · norm_num
    · norm_num
  refine ⟨?_, hpos, ?_, hneg⟩
  · simp only [scaleSample]
    rw [hc1, hc2]
  · simp only [scaleSample]
    rw [hc3, hc4]

-- Byte-length structure of the encoder output

theorem length_flatMap_const {α β : Type} (l : List α) (f : α → List β) (k : ℕ)
    (h : ∀ a ∈ l, (f a).length = k) : (l.flatMap f).length = l.length * k := by
  induction l with
  | nil => simp
  | cons a l ih =>
    simp only [List.flatMap_cons, List.length_append, List.length_cons]
    rw [h a (List.mem_cons_self a l), ih fun b hb => h b (List.mem_cons_of_mem a hb)]
    ring

theorem length_wavHeaderBytes (b : AudioBuffer) : (wavHeaderBytes b).length = 44 := rfl

theorem length_wavDataBytes (b : AudioBuffer) :
    (wavDataBytes b).length = b.length * (b.numberOfChannels * 2) := by
  unfold wavDataBytes
  rw [length_flatMap_const _ _ (b.numberOfChannels * 2), List.length_range]
  intro pos _
  rw [length_flatMap_const _ _ 2, List.length_range]
  intro i _
  rfl

/-- C8: the encoder is a total deterministic function on every buffer:
its output is always exactly `numChannels * frameCount * 2 + 44` bytes,
the header accounts for 44 of those bytes, and for a zero-frame buffer the
output is exactly the 44-byte header with an empty data chunk. -/
theorem audioBufferToWav_total_function (b : AudioBuffer) :
    (audioBufferToWav b).length = b.numberOfChannels * b.length * 2 + 44 ∧
    (wavHeaderBytes b).length = 44 ∧
    (b.length = 0 → audioBufferToWav b = wavHeaderBytes b) := by
  refine ⟨?_, length_wavHeaderBytes b, ?_⟩
  · rw [audioBufferToWav, List.length_append, length_wavHeaderBytes, length_wavDataBytes]
    ring
  · intro h0
    rw [audioBufferToWav]
    have : wavDataBytes b = [] := by
      unfold wavDataBytes
      rw [h0]
      rfl
    rw [this, List.append_nil]

/-- Witness for C8 at a concrete zero-frame buffer (1 channel, 8000 Hz). -/
theorem audioBufferToWav_total_function_witness :
    (audioBufferToWav (createBuffer 1 0 8000)).length = 1 * 0 * 2 + 44 ∧
    (wavHeaderBytes (createBuffer 1 0 8000)).length = 44 ∧
    audioBufferToWav (createBuffer 1 0 8000) = wavHeaderBytes (createBuffer 1 0 8000) :=
  ⟨(audioBufferToWav_total_function (createBuffer 1 0 8000)).1,
   (audioBufferToWav_total_function (createBuffer 1 0 8000)).2.1,
   (audioBufferToWav_total_function (createBuffer 1 0 8000)).2.2 rfl⟩

-- The data-chunk size field

theorem scaleSample_zero : scaleSample 0 = 0 := by
  have hc : clampSample (0 : ℚ) = 0 := by
    unfold clampSample
    rw [min_eq_right (by norm_num), max_eq_right (by norm_num)]
  simp only [scaleSample]
  rw [hc, if_neg (by norm_num)]
  unfold truncToInt
  rw [if_neg (by norm_num)]
  norm_num

/-- Concrete 1-channel, 1-frame silent buffer used to exhibit the
data-chunk size defect. -/
def wavBugInput : AudioBuffer := createBuffer 1 1 8000

/-- C1 (counter-evidence): on a 1-channel, 1-frame buffer the header fields
at offsets 22 (channels), 24 (sample rate) and 34 (bits per sample) decode
back correctly, but the 4-byte field at offset 40 holds 42
(`length - pos - 4` with `pos` still 0, i.e. `channels*frames*2 + 40`),
not the `channels * frames * 2 = 2` data bytes that follow. -/
theorem wav_data_size_field_bug :
    readU16 (audioBufferToWav wavBugInput) 22 = 1 ∧
    readU32 (audioBufferToWav wavBugInput) 24 = 8000 ∧
    readU16 (audioBufferToWav wavBugInput) 34 = 16 ∧
    readU32 (audioBufferToWav wavBugInput) 40 = 42 ∧
    wavBugInput.numberOfChannels * wavBugInput.length * 2 = 2 := by
  have hdata : wavDataBytes wavBugInput = [0, 0] := by
    unfold wavDataBytes
    rw [show List.range wavBugInput.length = [0] from rfl,
        show List.range wavBugInput.numberOfChannels = [0] from rfl]
    simp only [List.flatMap_cons, List.flatMap_nil, List.append_nil]
    rw [show (getChannelData wavBugInput 0).getD 0 0 = (0 : ℚ) from rfl, scaleSample_zero]
    rfl
  have hwav : audioBufferToWav wavBugInput = wavHeaderBytes wavBugInput ++ [0, 0] := by
    rw [audioBufferToWav, hdata]
  rw [hwav]
  refine ⟨?_, ?_, ?_, ?_, rfl⟩ <;> decide

-- The mixer (`mixAudioTracks` in `audioUtils.ts`)

/-- Embedding of the `AudioTrack` data consumed by `mixAudioTracks`: the
decoded buffer, the duration in seconds and the start offset in seconds.
The UI-only fields (`file`, `fileName`, `color`) are omitted; `id` is kept
because the `App.tsx` track mutations select tracks by it. -/
@[ext]
structure AudioTrack where
  id : String
  buffer : AudioBuffer
  duration : ℚ
  startTime : ℚ
deriving DecidableEq

/-- Embedding of the `totalDuration` reduce in `mixAudioTracks`:
`tracks.reduce((max, t) => Math.max(max, t.startTime + t.duration), 0)`. -/
def totalDuration (tracks : List AudioTrack) : ℚ :=
  tracks.foldl (fun m t => max m (t.startTime + t.duration)) 0

/-- Embedding of `Math.floor(track.startTime * SAMPLE_RATE)`. -/
def startSampleOf (t : AudioTrack) : ℤ :=
  ⌊t.startTime * (SAMPLE_RATE : ℚ)⌋

/-- Embedding of the source-channel selection
`channel < track.buffer.numberOfChannels ? channel : 0`: mono tracks feed
channel 0 into every output channel. -/
def sourceChannelIndex (t : AudioTrack) (c : ℕ) : ℕ :=
  if c < t.buffer.numberOfChannels then c else 0

/-- Embedding of the inner sample loop of `mixAudioTracks`:
`for (i = 0; i < trackChannelData.length; i++) if (startSample + i <
outputData.length) outputData[startSample + i] += trackChannelData[i]`.
The additional `0 ≤ startSample + i` conjunct models the JavaScript
typed-array semantics that an indexed write at a negative index is a
no-op (the guard in the source only bounds the index from above). -/
def addSamples (s : ℤ) : List ℚ → List ℚ → ℕ → List ℚ
  | out, [], _ => out
  | out, x :: rest, i =>
      addSamples s
        (if s + (i : ℤ) < (out.length : ℤ) ∧ 0 ≤ s + (i : ℤ) then
          out.set (s + (i : ℤ)).toNat (out.getD (s + (i : ℤ)).toNat 0 + x)
        else out)
        rest (i + 1)

/-- Embedding of one iteration of the `for (const track of tracks)` loop of
`mixAudioTracks`: for each output channel `c` below
`outputBuffer.numberOfChannels`, add the source-channel data of the track into
the output channel starting at the start sample of the track. -/
def mixTrackInto (out : AudioBuffer) (t : AudioTrack) : AudioBuffer :=
  { out with
    channels :=
      (List.range out.numberOfChannels).map fun c =>
        addSamples (startSampleOf t) (getChannelData out c)
          (getChannelData t.buffer (sourceChannelIndex t c)) 0 }

/-- Embedding of `mixAudioTracks`: the empty track list yields a 1-second
2-channel silent buffer at the fixed rate; otherwise a zeroed 2-channel
buffer of `ceil(totalDuration * SAMPLE_RATE)` frames is allocated and every
track is mixed into it in order. -/
def mixAudioTracks (tracks : List AudioTrack) : AudioBuffer :=
  if tracks.isEmpty then createBuffer 2 SAMPLE_RATE SAMPLE_RATE
  else
    tracks.foldl mixTrackInto
      (createBuffer 2 (⌈totalDuration tracks * (SAMPLE_RATE : ℚ)⌉).toNat SAMPLE_RATE)

/-- The additive contribution of a sample list placed at start sample `s`
to output index `j` (zero outside the placed range). -/
def contribAt (s : ℤ) (data : List ℚ) (j : ℕ) : ℚ :=
  if s ≤ (j : ℤ) ∧ (j : ℤ) < s + data.length then data.getD ((j : ℤ) - s).toNat 0 else 0

/-- The additive contribution of track `t` to output channel `c` at output
index `j`. -/
def trackContrib (t : AudioTrack) (c : ℕ) (j : ℕ) : ℚ :=
  contribAt (startSampleOf t) (getChannelData t.buffer (sourceChannelIndex t c)) j

/-- Well-formedness of a buffer: one sample list per declared channel, each
of the declared frame length (every buffer the Web Audio API hands out, and
every buffer `createBuffer` makes, satisfies this). -/
def WFBuf (b : AudioBuffer) : Prop :=
  b.channels.length = b.numberOfChannels ∧ ∀ ch ∈ b.channels, ch.length = b.length

-- List update helpers

theorem getD_set_eq (l : List ℚ) (i : ℕ) (a : ℚ) (h : i < l.length) :
    (l.set i a).getD i 0 = a := by
  rw [List.getD_eq_getElem?_getD, List.getElem?_set]
  simp [h]

theorem getD_set_ne (l : List ℚ) (i j : ℕ) (a : ℚ) (h : i ≠ j) :
    (l.set i a).getD j 0 = l.getD j 0 := by
  rw [List.getD_eq_getElem?_getD, List.getElem?_set, if_neg h, ← List.getD_eq_getElem?_getD]

theorem getD_replicate_zero (n j : ℕ) : (List.replicate n (0 : ℚ)).getD j 0 = 0 := by
  induction n generalizing j with
  | zero => rfl
  | succ n ih =>
    cases j with
    | zero => rfl
    | succ j => simp [List.replicate_succ, List.getD_cons_succ, ih j]

-- Unfolding equations of the sample loop

theorem addSamples_nil (s : ℤ) (out : List ℚ) (i : ℕ) : addSamples s out [] i = out := rfl

theorem addSamples_cons (s : ℤ) (out : List ℚ) (x : ℚ) (rest : List ℚ) (i : ℕ) :
    addSamples s out (x :: rest) i =
      addSamples s
        (if s + (i : ℤ) < (out.length : ℤ) ∧ 0 ≤ s + (i : ℤ) then
          out.set (s + (i : ℤ)).toNat (out.getD (s + (i : ℤ)).toNat 0 + x)
        else out) rest (i + 1) := rfl

theorem length_addSamples (s : ℤ) (data : List ℚ) :
    ∀ (out : List ℚ) (i : ℕ), (addSamples s out data i).length = out.length := by
  induction data with
  | nil => intro out i; rfl
  | cons x rest ih =>
    intro out i
    rw [addSamples_cons, ih]
    split
    · exact List.length_set out _ _
    · rfl

theorem contribAt_nil (s : ℤ) (j : ℕ) : contribAt s [] j = 0 := by
  unfold contribAt
  rw [if_neg]
  simp only [List.length_nil, Nat.cast_zero, add_zero]
  omega

theorem contribAt_cons (s : ℤ) (x : ℚ) (rest : List ℚ) (j : ℕ) :
    contribAt s (x :: rest) j = if (j : ℤ) = s then x else contribAt (s + 1) rest j := by
  unfold contribAt
  by_cases hj : (j : ℤ) = s
  · rw [if_pos hj, if_pos]
    · rw [show ((j : ℤ) - s).toNat = 0 from by omega]
      rfl
    · simp only [List.length_cons]
      push_cast
      omega
  · rw [if_neg hj]
    by_cases hle : s + 1 ≤ (j : ℤ)
    · by_cases hlt : (j : ℤ) < s + 1 + rest.length
      · rw [if_pos ⟨by omega, by simp only [List.length_cons]; push_cast; omega⟩,
            if_pos ⟨hle, hlt⟩]
        rw [show ((j : ℤ) - s).toNat = ((j : ℤ) - (s + 1)).toNat + 1 from by omega]
        rfl
      · rw [if_neg, if_neg]
        · omega
        · simp only [List.length_cons]
          push_cast
          omega
    · rw [if_neg, if_neg]
      · omega
      · omega

theorem getD_addSamples (s : ℤ) (data : List ℚ) :
    ∀ (out : List ℚ) (i : ℕ) (j : ℕ), j < out.length →
      (addSamples s out data i).getD j 0 = out.getD j 0 + contribAt (s + i) data j := by
  induction data with
  | nil =>
    intro out i j _
    rw [addSamples_nil, contribAt_nil, add_zero]
  | cons x rest ih =>
    intro out i j hj
    rw [addSamples_cons]
    by_cases hw : s + (i : ℤ) < (out.length : ℤ) ∧ 0 ≤ s + (i : ℤ)
    · rw [if_pos hw]
      have hlen : (out.set (s + (i : ℤ)).toNat (out.getD (s + (i : ℤ)).toNat 0 + x)).length
          = out.length := List.length_set out _ _
      rw [ih _ (i + 1) j (by rw [hlen]; exact hj)]
      rw [contribAt_cons]
      by_cases hji : (j : ℤ) = s + (i : ℤ)
      · rw [if_pos hji]
        have hidx : (s + (i : ℤ)).toNat = j := by omega
        rw [hidx, getD_set_eq out j _ hj]
        rw [show s + ((i : ℕ) + 1 : ℕ) = s + (i : ℤ) + 1 from by push_cast; ring]
        rw [show contribAt (s + (i : ℤ) + 1) rest j = 0 from ?_]
        · ring
        · unfold contribAt
          rw [if_neg]
          omega
      · rw [if_neg hji]
        rw [getD_set_ne out _ j _ (by omega)]
        rw [show s + ((i : ℕ) + 1 : ℕ) = s + (i : ℤ) + 1 from by push_cast; ring]
    · rw [if_neg hw]
      rw [ih out (i + 1) j hj]
      rw [contribAt_cons]
      have hji : ¬ (j : ℤ) = s + (i : ℤ) := by omega
      rw [if_neg hji]
      rw [show s + ((i : ℕ) + 1 : ℕ) = s + (i : ℤ) + 1 from by push_cast; ring]

-- Characterization of one track-mix step

theorem getD_range_map {α : Type} (f : ℕ → α) (n c : ℕ) (d : α) (h : c < n) :
    ((List.range n).map f).getD c d = f c := by
  rw [List.getD_eq_getElem?_getD, List.getElem?_map, List.getElem?_range h]
  rfl

theorem getChannelData_length (b : AudioBuffer) (hwf : WFBuf b) (c : ℕ)
    (hc : c < b.numberOfChannels) : (getChannelData b c).length = b.length := by
  obtain ⟨h1, h2⟩ := hwf
  apply h2
  unfold getChannelData
  have hc2 : c < b.channels.length := by omega
  rw [List.getD_eq_getElem?_getD, List.getElem?_eq_getElem hc2]
  exact List.getElem_mem hc2

theorem wf_createBuffer (ch len rate : ℕ) : WFBuf (createBuffer ch len rate) := by
  constructor
  · simp [createBuffer]
  · intro l hl
    have := List.eq_of_mem_replicate hl
    simp [createBuffer, this]

theorem sampleAt_createBuffer (ch len rate c j : ℕ) :
    sampleAt (createBuffer ch len rate) c j = 0 := by
  show ((List.replicate ch (List.replicate len (0 : ℚ))).getD c []).getD j 0 = 0
  have h : (List.replicate ch (List.replicate len (0 : ℚ))).getD c []
      = if c < ch then List.replicate len 0 else [] := by
    rw [List.getD_eq_getElem?_getD, List.getElem?_replicate]
    split
    · rfl
    · rfl
  rw [h]
  split
  · exact getD_replicate_zero len j
  · rfl

theorem mixTrackInto_fields (out : AudioBuffer) (t : AudioTrack) :
    (mixTrackInto out t).numberOfChannels = out.numberOfChannels ∧
    (mixTrackInto out t).length = out.length ∧
    (mixTrackInto out t).sampleRate = out.sampleRate := ⟨rfl, rfl, rfl⟩

theorem getChannelData_mixTrackInto (out : AudioBuffer) (t : AudioTrack) (c : ℕ)
    (hc : c < out.numberOfChannels) :
    getChannelData (mixTrackInto out t) c =
      addSamples (startSampleOf t) (getChannelData out c)
        (getChannelData t.buffer (sourceChannelIndex t c)) 0 := by
  unfold getChannelData mixTrackInto
  exact getD_range_map _ _ c [] hc

theorem wf_mixTrackInto (out : AudioBuffer) (t : AudioTrack) (hwf : WFBuf out) :
    WFBuf (mixTrackInto out t) := by
  constructor
  · simp [mixTrackInto]
  · intro ch hch
    simp only [mixTrackInto, List.mem_map, List.mem_range] at hch
    obtain ⟨c, hc, rfl⟩ := hch
    show (addSamples _ _ _ _).length = out.length
    rw [length_addSamples]
    exact getChannelData_length out hwf c hc

theorem sampleAt_mixTrackInto (out : AudioBuffer) (t : AudioTrack) (hwf : WFBuf out)
    (c : ℕ) (hc : c < out.numberOfChannels) (j : ℕ) (hj : j < out.length) :
    sampleAt (mixTrackInto out t) c j = sampleAt out c j + trackContrib t c j := by
  unfold sampleAt
  rw [getChannelData_mixTrackInto out t c hc]
  rw [getD_addSamples _ _ _ 0 j (by rw [getChannelData_length out hwf c hc]; exact hj)]
  unfold trackContrib
  norm_num

-- Characterization of the whole track loop

theorem foldl_mixTrackInto_char (tracks : List AudioTrack) :
    ∀ out : AudioBuffer, WFBuf out →
      WFBuf (tracks.foldl mixTrackInto out) ∧
      (tracks.foldl mixTrackInto out).numberOfChannels = out.numberOfChannels ∧
      (tracks.foldl mixTrackInto out).length = out.length ∧
      (tracks.foldl mixTrackInto out).sampleRate = out.sampleRate ∧
      ∀ c, c < out.numberOfChannels → ∀ j, j < out.length →
        sampleAt (tracks.foldl mixTrackInto out) c j
          = sampleAt out c j + (tracks.map fun t => trackContrib t c j).sum := by
  induction tracks with
  | nil =>
    intro out hwf
    refine ⟨hwf, rfl, rfl, rfl, ?_⟩
    intro c _ j _
    simp
  | cons t rest ih =>
    intro out hwf
    have hwf2 : WFBuf (mixTrackInto out t) := wf_mixTrackInto out t hwf
    obtain ⟨ha, hb, hc, hd, he⟩ := ih (mixTrackInto out t) hwf2
    rw [List.foldl_cons]
    refine ⟨ha, hb, hc, hd, ?_⟩
    intro c hcc j hjj
    rw [he c hcc j hjj, sampleAt_mixTrackInto out t hwf c hcc j hjj]
    rw [List.map_cons, List.sum_cons]
    ring

theorem mixAudioTracks_nonempty (tracks : List AudioTrack) (h : tracks ≠ []) :
    mixAudioTracks tracks =
      tracks.foldl mixTrackInto
        (createBuffer 2 (⌈totalDuration tracks * (SAMPLE_RATE : ℚ)⌉).toNat SAMPLE_RATE) := by
  unfold mixAudioTracks
  rw [if_neg]
  simp [List.isEmpty_iff, h]

/-- Pointwise characterization of the mixer on a non-empty track list: the
output is a 2-channel buffer of `ceil(totalDuration * SAMPLE_RATE)` frames
at the fixed rate, and every in-range sample is the sum of the per-track
additive contributions. -/
theorem mix_char (tracks : List AudioTrack) (h : tracks ≠ []) :
    (mixAudioTracks tracks).numberOfChannels = 2 ∧
    (mixAudioTracks tracks).length = (⌈totalDuration tracks * (SAMPLE_RATE : ℚ)⌉).toNat ∧
    (mixAudioTracks tracks).sampleRate = SAMPLE_RATE ∧
    WFBuf (mixAudioTracks tracks) ∧
    ∀ c, c < 2 → ∀ j, j < (mixAudioTracks tracks).length →
      sampleAt (mixAudioTracks tracks) c j = (tracks.map fun t => trackContrib t c j).sum := by
  rw [mixAudioTracks_nonempty tracks h]
  set out := createBuffer 2 (⌈totalDuration tracks * (SAMPLE_RATE : ℚ)⌉).toNat SAMPLE_RATE with hout
  obtain ⟨ha, hb, hc, hd, he⟩ := foldl_mixTrackInto_char tracks out (wf_createBuffer _ _ _)
  refine ⟨hb, hc, hd, ha, ?_⟩
  intro c hcc j hjj
  rw [hc] at hjj
  rw [he c hcc j hjj, hout, sampleAt_createBuffer, zero_add]

/-- C4: the mixer applied to the empty track list returns (rather than
failing, it is a total function) a 2-channel buffer of exactly one second
at the fixed rate — 44100 frames at 44100 Hz — with every sample zero. -/
theorem mixAudioTracks_empty :
    (mixAudioTracks []).numberOfChannels = 2 ∧
    (mixAudioTracks []).length = 44100 ∧
    (mixAudioTracks []).length = SAMPLE_RATE ∧
    (mixAudioTracks []).sampleRate = SAMPLE_RATE ∧
    ∀ c j, sampleAt (mixAudioTracks []) c j = 0 := by
  have hmix : mixAudioTracks [] = createBuffer 2 SAMPLE_RATE SAMPLE_RATE := rfl
  refine ⟨rfl, rfl, rfl, rfl, ?_⟩
  intro c j
  rw [hmix]
  exact sampleAt_createBuffer _ _ _ c j

-- Placement of the contribution of one track

theorem contribAt_before (s : ℤ) (data : List ℚ) (j : ℕ) (h : (j : ℤ) < s) :
    contribAt s data j = 0 := by
  unfold contribAt
  rw [if_neg]
  omega

theorem contribAt_first (s : ℤ) (data : List ℚ) (j : ℕ) (h : (j : ℤ) = s)
    (hne : data ≠ []) : contribAt s data j = data.getD 0 0 := by
  unfold contribAt
  have hlen : 0 < data.length := List.length_pos.mpr hne
  rw [if_pos ⟨by omega, by omega⟩]
  rw [show ((j : ℤ) - s).toNat = 0 from by omega]

theorem contribAt_zero_inside (data : List ℚ) (j : ℕ) (hj : j < data.length) :
    contribAt 0 data j = data.getD j 0 := by
  unfold contribAt
  rw [if_pos ⟨by omega, by omega⟩]
  rw [show ((j : ℤ) - 0).toNat = j from by omega]

/-- C6: on a non-empty track list the mixer allocates a 2-channel output of
`ceil(totalDuration * SAMPLE_RATE)` frames whose in-range samples are
exactly the sums of the per-track contributions; a track contributes nothing
at any index below `floor(startTime * SAMPLE_RATE)`, contributes its first
sample exactly at that index, and for `startTime = 2.0` that index is
`2 * SAMPLE_RATE`. -/
theorem mixAudioTracks_placement (tracks : List AudioTrack) (h : tracks ≠ []) :
    (mixAudioTracks tracks).numberOfChannels = 2 ∧
    (mixAudioTracks tracks).length = (⌈totalDuration tracks * (SAMPLE_RATE : ℚ)⌉).toNat ∧
    (∀ c, c < 2 → ∀ j, j < (mixAudioTracks tracks).length →
      sampleAt (mixAudioTracks tracks) c j = (tracks.map fun t => trackContrib t c j).sum) ∧
    (∀ t : AudioTrack, ∀ c j : ℕ, (j : ℤ) < startSampleOf t → trackContrib t c j = 0) ∧
    (∀ t : AudioTrack, ∀ c j : ℕ, (j : ℤ) = startSampleOf t →
      getChannelData t.buffer (sourceChannelIndex t c) ≠ [] →
      trackContrib t c j = (getChannelData t.buffer (sourceChannelIndex t c)).getD 0 0) ∧
    (∀ t : AudioTrack, t.startTime = 2 → startSampleOf t = 2 * (SAMPLE_RATE : ℤ)) := by
  obtain ⟨h1, h2, _, _, h5⟩ := mix_char tracks h
  refine ⟨h1, h2, h5, ?_, ?_, ?_⟩
  · intro t c j hj
    exact contribAt_before _ _ j hj
  · intro t c j hj hne
    exact contribAt_first _ _ j hj hne
  · intro t ht
    unfold startSampleOf
    rw [ht]
    rw [show ((2 : ℚ) * (SAMPLE_RATE : ℕ)) = ((2 * (SAMPLE_RATE : ℤ) : ℤ) : ℚ) from by
      push_cast; ring]
    exact Int.floor_intCast _

/-- C5: mixing a single track that starts at time 0 gives an output of
`ceil(duration * SAMPLE_RATE)` frames (equal to the frame count of the buffer
when the duration is derived from it), which duplicates channel 0 into both
output channels for a mono track and copies channel-for-channel for a
stereo track. -/
theorem mixAudioTracks_single (T : AudioTrack) (h0 : T.startTime = 0)
    (hwf : WFBuf T.buffer)
    (hdur : ((T.buffer.length : ℕ) : ℚ) = T.duration * (SAMPLE_RATE : ℚ)) :
    (mixAudioTracks [T]).length = (⌈T.duration * (SAMPLE_RATE : ℚ)⌉).toNat ∧
    (mixAudioTracks [T]).length = T.buffer.length ∧
    (T.buffer.numberOfChannels = 1 →
      ∀ c, c < 2 → ∀ j, j < T.buffer.length →
        sampleAt (mixAudioTracks [T]) c j = sampleAt T.buffer 0 j) ∧
    (T.buffer.numberOfChannels = 2 →
      ∀ c, c < 2 → ∀ j, j < T.buffer.length →
        sampleAt (mixAudioTracks [T]) c j = sampleAt T.buffer c j) := by
  have hne : ([T] : List AudioTrack) ≠ [] := List.cons_ne_nil T []
  have hTD : totalDuration [T] = T.duration := by
    unfold totalDuration
    rw [List.foldl_cons, List.foldl_nil, h0, zero_add]
    refine max_eq_right ?_
    have hR : (0 : ℚ) < (SAMPLE_RATE : ℚ) := by norm_num [SAMPLE_RATE]
    nlinarith [Nat.cast_nonneg (α := ℚ) T.buffer.length]
  have hceil : (⌈T.duration * (SAMPLE_RATE : ℚ)⌉).toNat = T.buffer.length := by
    rw [← hdur, Int.ceil_natCast, Int.toNat_natCast]
  obtain ⟨hch, hlen, _, _, hs⟩ := mix_char [T] hne
  have hlen2 : (mixAudioTracks [T]).length = T.buffer.length := by
    rw [hlen, hTD, hceil]
  have hstart : startSampleOf T = 0 := by
    unfold startSampleOf
    rw [h0, zero_mul, Int.floor_zero]
  have hsingle : ∀ c, c < 2 → ∀ j, j < T.buffer.length →
      sampleAt (mixAudioTracks [T]) c j
        = contribAt 0 (getChannelData T.buffer (sourceChannelIndex T c)) j := by
    intro c hc j hj
    rw [hs c hc j (by rw [hlen2]; exact hj), List.map_cons, List.map_nil,
        List.sum_cons, List.sum_nil, add_zero]
    unfold trackContrib
    rw [hstart]
  refine ⟨by rw [hlen, hTD], hlen2, ?_, ?_⟩
  · intro hmono c hc j hj
    rw [hsingle c hc j hj]
    have hsrc : sourceChannelIndex T c = 0 := by
      unfold sourceChannelIndex
      rw [hmono]
      interval_cases c
      · rfl
      · rfl
    rw [hsrc]
    have hdl : (getChannelData T.buffer 0).length = T.buffer.length :=
      getChannelData_length T.buffer hwf 0 (by omega)
    rw [contribAt_zero_inside _ j (by rw [hdl]; exact hj)]
    rfl
  · intro hstereo c hc j hj
    rw [hsingle c hc j hj]
    have hsrc : sourceChannelIndex T c = c := by
      unfold sourceChannelIndex
      rw [hstereo, if_pos hc]
    rw [hsrc]
    have hdl : (getChannelData T.buffer c).length = T.buffer.length :=
      getChannelData_length T.buffer hwf c (by omega)
    rw [contribAt_zero_inside _ j (by rw [hdl]; exact hj)]
    rfl

-- Permutation invariance of the mixer

theorem perm_foldl_max (l1 l2 : List AudioTrack) (h : l1.Perm l2) :
    ∀ a : ℚ, l1.foldl (fun m t => max m (t.startTime + t.duration)) a
      = l2.foldl (fun m t => max m (t.startTime + t.duration)) a := by
  induction h with
  | nil => intro a; rfl
  | cons x _ ih =>
    intro a
    simp only [List.foldl_cons]
    exact ih _
  | swap x y l =>
    intro a
    simp only [List.foldl_cons]
    rw [sup_right_comm]
  | trans _ _ ih1 ih2 =>
    intro a
    rw [ih1 a, ih2 a]

theorem totalDuration_perm (l1 l2 : List AudioTrack) (h : l1.Perm l2) :
    totalDuration l1 = totalDuration l2 :=
  perm_foldl_max l1 l2 h 0

theorem sampleAt_eq_getElem (b : AudioBuffer) (c j : ℕ) (hc : c < b.channels.length)
    (hj : j < b.channels[c].length) : b.channels[c][j] = sampleAt b c j := by
  have h1 : getChannelData b c = b.channels[c] := by
    unfold getChannelData
    rw [List.getD_eq_getElem?_getD, List.getElem?_eq_getElem hc]
    rfl
  unfold sampleAt
  rw [h1, List.getD_eq_getElem?_getD, List.getElem?_eq_getElem hj]
  rfl

/-- C3: the mixer returns the same output buffer for every permutation of
its input track list (sample arithmetic being modelled exactly, addition of
contributions is commutative, and the total duration is a commutative
maximum). -/
theorem mixAudioTracks_perm_invariant (l1 l2 : List AudioTrack) (h : l1.Perm l2) :
    mixAudioTracks l1 = mixAudioTracks l2 := by
  rcases eq_or_ne l1 [] with h1 | h1
  · subst h1
    rw [h.symm.eq_nil]
  · have h2 : l2 ≠ [] := by
      intro he
      subst he
      exact h1 h.eq_nil
    obtain ⟨hch1, hlen1, hsr1, hwf1, hs1⟩ := mix_char l1 h1
    obtain ⟨hch2, hlen2, hsr2, hwf2, hs2⟩ := mix_char l2 h2
    have hTD : totalDuration l1 = totalDuration l2 := totalDuration_perm l1 l2 h
    have hlen12 : (mixAudioTracks l1).length = (mixAudioTracks l2).length := by
      rw [hlen1, hlen2, hTD]
    have hchanlen1 : (mixAudioTracks l1).channels.length = 2 := by
      rw [hwf1.1, hch1]
    have hchanlen2 : (mixAudioTracks l2).channels.length = 2 := by
      rw [hwf2.1, hch2]
    apply AudioBuffer.ext
    · rw [hch1, hch2]
    · exact hlen12
    · rw [hsr1, hsr2]
    · apply List.ext_getElem
      · rw [hchanlen1, hchanlen2]
      · intro c hc1 hc2
        have hc : c < 2 := by rw [← hchanlen1]; exact hc1
        have hcl1 : (mixAudioTracks l1).channels[c].length = (mixAudioTracks l1).length :=
          hwf1.2 _ (List.getElem_mem hc1)
        have hcl2 : (mixAudioTracks l2).channels[c].length = (mixAudioTracks l2).length :=
          hwf2.2 _ (List.getElem_mem hc2)
        apply List.ext_getElem
        · rw [hcl1, hcl2, hlen12]
        · intro j hj1 hj2
          have hjlt : j < (mixAudioTracks l1).length := by rw [← hcl1]; exact hj1
          rw [sampleAt_eq_getElem _ c j hc1 hj1, sampleAt_eq_getElem _ c j hc2 hj2]
          rw [hs1 c hc j hjlt, hs2 c hc j (by rw [← hlen12]; exact hjlt)]
          exact (h.map fun t => trackContrib t c j).sum_eq

-- Concrete tracks for witnesses

/-- A concrete mono track: 2 frames (samples 1/2 and 1/4) at the fixed
rate, placed at time 0, duration derived from the buffer. -/
def trkMono : AudioTrack :=
  { id := "a"
    buffer :=
      { numberOfChannels := 1
        length := 2
        sampleRate := 44100
        channels := [[1 / 2, 1 / 4]] }
    duration := 1 / 22050
    startTime := 0 }

/-- A concrete mono track placed at time 2. -/
def trkLater : AudioTrack :=
  { id := "b"
    buffer :=
      { numberOfChannels := 1
        length := 1
        sampleRate := 44100
        channels := [[1]] }
    duration := 1 / 44100
    startTime := 2 }

/-- Witness for C3: swapping two concrete tracks leaves the mix unchanged. -/
theorem mixAudioTracks_perm_invariant_witness :
    mixAudioTracks [trkMono, trkLater] = mixAudioTracks [trkLater, trkMono] :=
  mixAudioTracks_perm_invariant _ _ (List.Perm.swap trkLater trkMono [])

theorem trkMono_wf : WFBuf trkMono.buffer := by
  refine ⟨rfl, ?_⟩
  intro ch hch
  have h : ch = [1 / 2, 1 / 4] := by
    rw [show trkMono.buffer.channels = [[(1 : ℚ) / 2, 1 / 4]] from rfl] at hch
    exact List.mem_singleton.mp hch
  rw [h]
  rfl

/-- Witness for C5 at the concrete mono track `trkMono`. -/
theorem mixAudioTracks_single_witness :
    (mixAudioTracks [trkMono]).length = (⌈trkMono.duration * (SAMPLE_RATE : ℚ)⌉).toNat ∧
    (mixAudioTracks [trkMono]).length = trkMono.buffer.length ∧
    (trkMono.buffer.numberOfChannels = 1 →
      ∀ c, c < 2 → ∀ j, j < trkMono.buffer.length →
        sampleAt (mixAudioTracks [trkMono]) c j = sampleAt trkMono.buffer 0 j) ∧
    (trkMono.buffer.numberOfChannels = 2 →
      ∀ c, c < 2 → ∀ j, j < trkMono.buffer.length →
        sampleAt (mixAudioTracks [trkMono]) c j = sampleAt trkMono.buffer c j) :=
  mixAudioTracks_single trkMono rfl trkMono_wf
    (by norm_num [trkMono, SAMPLE_RATE])

/-- Witness for C6 at the concrete one-element track list `[trkLater]`. -/
theorem mixAudioTracks_placement_witness :
    (mixAudioTracks [trkLater]).numberOfChannels = 2 ∧
    (mixAudioTracks [trkLater]).length
      = (⌈totalDuration [trkLater] * (SAMPLE_RATE : ℚ)⌉).toNat ∧
    (∀ c, c < 2 → ∀ j, j < (mixAudioTracks [trkLater]).length →
      sampleAt (mixAudioTracks [trkLater]) c j
        = ([trkLater].map fun t => trackContrib t c j).sum) ∧
    (∀ t : AudioTrack, ∀ c j : ℕ, (j : ℤ) < startSampleOf t → trackContrib t c j = 0) ∧
    (∀ t : AudioTrack, ∀ c j : ℕ, (j : ℤ) = startSampleOf t →
      getChannelData t.buffer (sourceChannelIndex t c) ≠ [] →
      trackContrib t c j = (getChannelData t.buffer (sourceChannelIndex t c)).getD 0 0) ∧
    (∀ t : AudioTrack, t.startTime = 2 → startSampleOf t = 2 * (SAMPLE_RATE : ℤ)) :=
  mixAudioTracks_placement [trkLater] (List.cons_ne_nil _ _)

-- The composition session of App.tsx

/-- Session state of `App.tsx` relevant to the merged-buffer cache: the
`tracks` React state and the `mergedBufferRef` ref. -/
structure SessionState where
  tracks : List AudioTrack
  mergedBuffer : Option AudioBuffer
deriving DecidableEq

/-- The initial session: no tracks, empty merged-buffer ref. -/
def initialSession : SessionState :=
  { tracks := [], mergedBuffer := none }

/-- Modelled effect of a `setTracks` call followed by the `useEffect` on
`[tracks]` (App.tsx lines 39-49): the new list replaces the old one, and
the effect sets `mergedBufferRef.current = null` — except that it returns
early, leaving the ref untouched, when the new track list is empty.
React flushes this effect before the next user event, so it is modelled as
part of the mutation step. -/
def applyTracksChange (newTracks : List AudioTrack) (st : SessionState) : SessionState :=
  { tracks := newTracks
    mergedBuffer := if newTracks.isEmpty then st.mergedBuffer else none }

/-- The `App.tsx` user actions that touch the track set or the merged
buffer: `handleFileUpload` (append freshly decoded tracks), `removeTrack`
(filter by id), `updateTrackStartTime` (re-position, with its
`Math.max(0, newTime)` clamp) and `prepareMergedAudio`. -/
inductive SessionAction where
  | upload (newTracks : List AudioTrack)
  | removeTrack (id : String)
  | moveTrack (id : String) (newTime : ℚ)
  | prepareMerged
deriving DecidableEq

/-- One step of the session: the three mutations replace the track list and
run the invalidation effect; `prepareMergedAudio` fills the ref with
`mixAudioTracks(tracks)` when the track list is non-empty and the ref is
null, and otherwise leaves the state unchanged. -/
def sessionStep (st : SessionState) : SessionAction → SessionState
  | .upload ts => applyTracksChange (st.tracks ++ ts) st
  | .removeTrack id => applyTracksChange (st.tracks.filter fun t => t.id != id) st
  | .moveTrack id newTime =>
      applyTracksChange
        (st.tracks.map fun t =>
          if t.id = id then { t with startTime := max 0 newTime } else t) st
  | .prepareMerged =>
      if st.tracks.isEmpty then st
      else
        match st.mergedBuffer with
        | some _ => st
        | none => { st with mergedBuffer := some (mixAudioTracks st.tracks) }

/-- The value `prepareMergedAudio` returns in state `st`: `null` when the
track list is empty, else the cached buffer if present, else the freshly
mixed one (which the step also stores). -/
def prepareMergedAudio (st : SessionState) : Option AudioBuffer :=
  if st.tracks.isEmpty then none
  else
    match st.mergedBuffer with
    | some b => some b
    | none => some (mixAudioTracks st.tracks)

/-- A session run: the fold of the step function over a list of user
actions from the initial state. -/
def runSession (acts : List SessionAction) : SessionState :=
  acts.foldl sessionStep initialSession

/-- Freshness invariant: whenever the track list is non-empty, a non-null
cached buffer is exactly the mix of the current track list. -/
def mergedFresh (st : SessionState) : Prop :=
  st.tracks.isEmpty = false → ∀ b, st.mergedBuffer = some b → b = mixAudioTracks st.tracks

theorem mergedFresh_initial : mergedFresh initialSession := by
  intro h
  cases h

theorem mergedFresh_applyTracksChange (ts : List AudioTrack) (st : SessionState) :
    mergedFresh (applyTracksChange ts st) := by
  intro hne b hb
  simp only [applyTracksChange] at hne hb
  rw [hne] at hb
  cases hb

theorem mergedFresh_step (st : SessionState) (a : SessionAction) (h : mergedFresh st) :
    mergedFresh (sessionStep st a) := by
  cases a with
  | upload ts => exact mergedFresh_applyTracksChange _ st
  | removeTrack id => exact mergedFresh_applyTracksChange _ st
  | moveTrack id newTime => exact mergedFresh_applyTracksChange _ st
  | prepareMerged =>
    obtain ⟨tks, mb⟩ := st
    cases mb with
    | some b0 =>
      have hstep : sessionStep ⟨tks, some b0⟩ .prepareMerged = ⟨tks, some b0⟩ := by
        simp only [sessionStep]
        split
        · rfl
        · rfl
      rw [hstep]
      exact h
    | none =>
      by_cases he : tks.isEmpty
      · have hstep : sessionStep ⟨tks, none⟩ .prepareMerged = ⟨tks, none⟩ := by
          simp only [sessionStep]
          rw [if_pos he]
        rw [hstep]
        exact h
      · have hstep : sessionStep ⟨tks, none⟩ .prepareMerged
            = ⟨tks, some (mixAudioTracks tks)⟩ := by
          simp only [sessionStep]
          rw [if_neg he]
        rw [hstep]
        intro _ b hb
        have hb2 : some (mixAudioTracks tks) = some b := hb
        injection hb2 with hb3
        exact hb3.symm

theorem mergedFresh_run (acts : List SessionAction) : mergedFresh (runSession acts) := by
  unfold runSession
  have hgen : ∀ (l : List SessionAction) (st : SessionState),
      mergedFresh st → mergedFresh (l.foldl sessionStep st) := by
    intro l
    induction l with
    | nil => intro st h; exact h
    | cons a l ih =>
      intro st h
      exact ih _ (mergedFresh_step st a h)
  exact hgen acts initialSession mergedFresh_initial

/-- C9: in every reachable session state, `prepareMergedAudio` never serves
a stale buffer: it returns `null` exactly when the track list is empty and
otherwise exactly the mix of the current track list — every mutation of a
non-empty track set clears the cache before the next read, and while the
track set is empty the (possibly retained) cache is never consulted. -/
theorem prepareMergedAudio_never_stale (acts : List SessionAction) :
    prepareMergedAudio (runSession acts) =
      if (runSession acts).tracks.isEmpty then none
      else some (mixAudioTracks (runSession acts).tracks) := by
  have h := mergedFresh_run acts
  unfold prepareMergedAudio
  by_cases he : (runSession acts).tracks.isEmpty
  · rw [if_pos he, if_pos he]
  · rw [if_neg he, if_neg he]
    have hfe : (runSession acts).tracks.isEmpty = false := by
      revert he
      cases (runSession acts).tracks.isEmpty
      · intro _; rfl
      · intro he; exact absurd rfl he
    cases hm : (runSession acts).mergedBuffer with
    | none => rfl
    | some b => rw [h hfe b hm]
